import Mathlib

-- Verification development for the btx repository core:
-- the pixel index-map based panel assembly and disassembly of
-- src/btx/interfaces/psana_interface.py, and the time-tool edge-detection
-- and polynomial jitter-correction pipeline of
-- src/btx/timetool/rawimagetimetool.py.
-- Machine floats are modelled by exact rationals; the non-finite float
-- results (NaN, Inf) that numpy produces on degenerate normalisation are
-- modelled by an explicit marker constructor.

-- ===================== Panel Mapper (psana_interface.py) =====================

/-- Panel geometry shared by a pixel index map and a panel stack:
numbers of panels, fast-scan pixels and slow-scan pixels. -/
structure Geom where
  P : ℕ
  F : ℕ
  S : ℕ

/-- A pixel index map, shape (P, F, S, 2): for each panel-local pixel the
(row, col) target coordinate in the assembled image. -/
def PixelMap (g : Geom) := Fin g.P → Fin g.F → Fin g.S → ℕ × ℕ

/-- A single panel stack, shape (P, F, S), with rational pixel values. -/
def Panels (g : Geom) := Fin g.P → Fin g.F → Fin g.S → ℚ

/-- All (fast, slow) source addresses of one panel, in the row-major order in
which the numpy assignment images[:, map[l,:,:,0], map[l,:,:,1]] = stack[:, l]
enumerates them. -/
def panelSources (g : Geom) (p : Fin g.P) : List (Fin g.P × Fin g.F × Fin g.S) :=
  (List.finRange g.F).flatMap fun f => (List.finRange g.S).map fun s => (p, f, s)

/-- All (panel, fast, slow) source addresses in the order the source loops over
them: panels in increasing index order (the explicit python loop), pixels of a
panel in row-major order. -/
def sources (g : Geom) : List (Fin g.P × Fin g.F × Fin g.S) :=
  (List.finRange g.P).flatMap (panelSources g)

/-- One write of the assembly loop: if the source address t is mapped to the
target cell (r, c), the cell takes the value of t, otherwise it keeps its
current value.  Folding this over `sources` gives numpy's
last-write-wins semantics of the assignment loop. -/
def writeStep {g : Geom} (x : Panels g) (m : PixelMap g) (r c : ℕ)
    (acc : ℚ) (t : Fin g.P × Fin g.F × Fin g.S) : ℚ :=
  if m t.1 t.2.1 t.2.2 = (r, c) then x t.1 t.2.1 t.2.2 else acc

/-- Largest value of f over a list, starting from 0 (all values are ℕ, so this
agrees with numpy max on a nonempty map). -/
def listMaxBy {α : Type} (f : α → ℕ) (l : List α) : ℕ :=
  l.foldl (fun a t => max a (f t)) 0

/-- np.max(pixel_index_map[:, :, :, 0]) -/
def maxRow {g : Geom} (m : PixelMap g) : ℕ :=
  listMaxBy (fun t => (m t.1 t.2.1 t.2.2).1) (sources g)

/-- np.max(pixel_index_map[:, :, :, 1]) -/
def maxCol {g : Geom} (m : PixelMap g) : ℕ :=
  listMaxBy (fun t => (m t.1 t.2.1 t.2.2).2) (sources g)

/-- An assembled 2D image: canvas extent plus cell values (cells outside the
canvas are irrelevant and read as the zero fill). -/
structure AImage where
  height : ℕ
  width : ℕ
  data : ℕ → ℕ → ℚ

/-- Assembly of one panel stack into one image: zero-filled canvas of extent
(max row + 1, max col + 1), then every panel written in increasing panel
order, later writes overwriting earlier ones
(psana_interface.py lines 370-382). -/
def assembleOne {g : Geom} (x : Panels g) (m : PixelMap g) : AImage :=
  ⟨maxRow m + 1, maxCol m + 1,
    fun r c => (sources g).foldl (writeStep x m r c) 0⟩

/-- Disassembly of one image into a panel stack: read the assembled image at
the mapped coordinate of every panel pixel (psana_interface.py lines 411-415). -/
def disassembleOne {g : Geom} (img : AImage) (m : PixelMap g) : Panels g :=
  fun p f s => img.data (m p f s).1 (m p f s).2

/-- A panel-stack argument or result: 3-dimensional (one stack) or
4-dimensional (a batch of stacks with an explicit leading batch axis). -/
inductive StackData (g : Geom) where
  | single (x : Panels g)
  | batch (n : ℕ) (x : Fin n → Panels g)

/-- An assembled-image argument or result: 2-dimensional (one image) or
3-dimensional (a batch of images). -/
inductive ImageData where
  | single (img : AImage)
  | batch (n : ℕ) (imgs : Fin n → AImage)

/-- assemble_image_stack_batch: a 3D input is given a batch axis of size 1;
after assembly a leading batch axis of size 1 is squeezed away
(psana_interface.py lines 367-387). -/
def assemble_image_stack_batch {g : Geom} (inp : StackData g) (m : PixelMap g) :
    ImageData :=
  match inp with
  | StackData.single x => ImageData.single (assembleOne x m)
  | StackData.batch n x =>
      if h : n = 1 then ImageData.single (assembleOne (x ⟨0, by omega⟩) m)
      else ImageData.batch n (fun i => assembleOne (x i) m)

/-- disassemble_image_stack_batch: a 2D input is given a batch axis of size 1;
after disassembly a leading batch axis of size 1 is squeezed away
(psana_interface.py lines 408-420). -/
def disassemble_image_stack_batch {g : Geom} (inp : ImageData) (m : PixelMap g) :
    StackData g :=
  match inp with
  | ImageData.single img => StackData.single (disassembleOne img m)
  | ImageData.batch n imgs =>
      if h : n = 1 then StackData.single (disassembleOne (imgs ⟨0, by omega⟩) m)
      else StackData.batch n (fun i => disassembleOne (imgs i) m)

/-- Number of numpy array dimensions of a stack value. -/
def StackData.ndim {g : Geom} : StackData g → ℕ
  | StackData.single _ => 3
  | StackData.batch _ _ => 4

/-- Number of numpy array dimensions of an assembled value. -/
def ImageData.ndim : ImageData → ℕ
  | ImageData.single _ => 2
  | ImageData.batch _ _ => 3

/-- Leading batch-axis size of a stack value, if it has a batch axis. -/
def StackData.batchCount {g : Geom} : StackData g → Option ℕ
  | StackData.single _ => none
  | StackData.batch n _ => some n

/-- Leading batch-axis size of an assembled value, if it has a batch axis. -/
def ImageData.batchCount : ImageData → Option ℕ
  | ImageData.single _ => none
  | ImageData.batch n _ => some n

/-- The map sends distinct source pixels to distinct assembled cells (the
bijection invariant of the PixelIndexMap data model). -/
def MapInjective {g : Geom} (m : PixelMap g) : Prop :=
  ∀ p f s p2 f2 s2, m p f s = m p2 f2 s2 → p = p2 ∧ f = f2 ∧ s = s2

-- Concrete instances used by counterexamples and witnesses.

/-- Geometry with one panel of one pixel. -/
abbrev gOne : Geom := ⟨1, 1, 1⟩

/-- The unique pixel maps to cell (0, 0). -/
def mOne : PixelMap gOne := fun _ _ _ => (0, 0)

/-- A one-pixel panel stack holding the value 5. -/
def xOne : Panels gOne := fun _ _ _ => 5

/-- A batch of size 1 holding xOne. -/
def bOne : Fin 1 → Panels gOne := fun _ => xOne

/-- Geometry with two panels of one pixel each. -/
abbrev gTwo : Geom := ⟨2, 1, 1⟩

/-- Both panels collide onto cell (0, 0). -/
def mTwo : PixelMap gTwo := fun _ _ _ => (0, 0)

/-- Panel 0 holds 3, panel 1 holds 7. -/
def xTwo : Panels gTwo := fun p _ _ => if p.val = 0 then 3 else 7

-- ================= Timing Calibrator (rawimagetimetool.py) ==================

/-- jitter_correct (rawimagetimetool.py lines 245-274): evaluate the stored
polynomial (coefficients highest degree first) at the edge position, then
multiply by 1000 to convert the nanosecond estimate to picoseconds.  The
source guards the loop with a truthiness test on the model; an empty model
leaves the accumulator at 0. -/
def jitter_correct (model : List ℚ) (edge_pos : ℚ) : ℚ :=
  let n := model.length
  let correction : ℚ :=
    if model.isEmpty then 0
    else model.enum.foldl (fun acc ic => acc + ic.2 * edge_pos ^ (n - ic.1 - 1)) 0
  correction * 1000

/-- actual_time (rawimagetimetool.py lines 276-286). -/
def actual_time (model : List ℚ) (edge_pos : ℚ) (nominal_delay : ℚ) : ℚ :=
  nominal_delay + jitter_correct model edge_pos

/-- A machine-float value: an exact rational, or the marker for the
non-finite results (NaN or Inf) that numpy arithmetic produces instead of
raising.  In detect_edges the marker only arises as 0/0 from a
zero-dynamic-range projection, which IEEE evaluates to NaN. -/
inductive RVal where
  | num (q : ℚ)
  | nan
deriving DecidableEq

/-- Float addition: non-finite operands propagate. -/
def radd : RVal → RVal → RVal
  | RVal.num a, RVal.num b => RVal.num (a + b)
  | _, _ => RVal.nan

/-- Float subtraction: non-finite operands propagate. -/
def rsub : RVal → RVal → RVal
  | RVal.num a, RVal.num b => RVal.num (a - b)
  | _, _ => RVal.nan

/-- Float multiplication: non-finite operands propagate. -/
def rmul : RVal → RVal → RVal
  | RVal.num a, RVal.num b => RVal.num (a * b)
  | _, _ => RVal.nan

/-- Float division: division by zero yields the non-finite marker rather than
raising, as numpy float division does. -/
def rdiv : RVal → RVal → RVal
  | RVal.num a, RVal.num b => if b = 0 then RVal.nan else RVal.num (a / b)
  | _, _ => RVal.nan

/-- IEEE strict less-than: every comparison against a non-finite NaN-like
value is false. -/
def rlt : RVal → RVal → Bool
  | RVal.num a, RVal.num b => decide (a < b)
  | _, _ => false

/-- Pairwise minimum as np.min reduces: NaN propagates. -/
def rmin : RVal → RVal → RVal
  | RVal.num a, RVal.num b => RVal.num (min a b)
  | _, _ => RVal.nan

/-- Pairwise maximum as np.max reduces: NaN propagates. -/
def rmax : RVal → RVal → RVal
  | RVal.num a, RVal.num b => RVal.num (max a b)
  | _, _ => RVal.nan

/-- np.min of a 1D array (the empty case never reaches this point because
detect_edges treats it as the raising case). -/
def listMin : List RVal → RVal
  | [] => RVal.nan
  | v :: rest => rest.foldl rmin v

/-- np.max of a 1D array. -/
def listMax : List RVal → RVal
  | [] => RVal.nan
  | v :: rest => rest.foldl rmax v

/-- np.argmax: running best index, replaced only when a later value compares
strictly greater; comparisons involving NaN are false, so an all-NaN array
yields index 0. -/
def argmaxList : List RVal → ℕ
  | [] => 0
  | v :: rest =>
      ((List.enumFrom 1 rest).foldl
        (fun best iv => if rlt best.2 iv.2 then iv else best) (0, v)).1

/-- crop_image (rawimagetimetool.py lines 160-173): keep the row band
img[first:last]. -/
def crop_image (img : List (List RVal)) (first : ℕ) (last : ℕ) :
    List (List RVal) :=
  (img.drop first).take (last - first)

/-- np.sum(cropped, axis=0): columnwise sums of a rectangular row list. -/
def colSums : List (List RVal) → List RVal
  | [] => []
  | r :: rs => rs.foldl (fun acc row => List.zipWith radd acc row) r

/-- The convolution kernel of detect_edges: np.zeros(300) with the first 150
entries set to 1. -/
def ttkernel : List RVal :=
  List.replicate 150 (RVal.num 1) ++ List.replicate 150 (RVal.num 0)

/-- One coefficient of the full discrete convolution of a with b. -/
def fullConvElem (a b : List RVal) (k : ℕ) : RVal :=
  (List.range a.length).foldl
    (fun acc j =>
      if j ≤ k ∧ k - j < b.length then
        radd acc (rmul (a.getD j (RVal.num 0)) (b.getD (k - j) (RVal.num 0)))
      else acc)
    (RVal.num 0)

/-- The full discrete convolution, length len(a) + len(b) - 1. -/
def fullConv (a b : List RVal) : List RVal :=
  (List.range (a.length + b.length - 1)).map (fullConvElem a b)

/-- fftconvolve(a, b, mode=same): the central len(a) coefficients of the full
convolution, starting at index (len(b) - 1) / 2 (integer division). -/
def convSame (a b : List RVal) : List RVal :=
  ((fullConv a b).drop ((b.length - 1) / 2)).take a.length

/-- The body of the per-event try block of detect_edges (rawimagetimetool.py
lines 135-149): crop, project, normalise, convolve, take the argmax as the
edge and the convolution value there as the amplitude.  Returns none exactly
when the block raises: np.min faults on an empty projection (an image with
fewer than 41 rows); float normalisation of a constant projection does NOT
raise, it silently produces non-finite values. -/
def process_frame (img : List (List RVal)) : Option (ℕ × RVal) :=
  let cropped := crop_image img 40 60
  let proj0 := colSums cropped
  if proj0.isEmpty then none
  else
    let mn := listMin proj0
    let proj1 := proj0.map (fun v => rsub v mn)
    let mx := listMax proj1
    let proj2 := proj1.map (fun v => rdiv v mx)
    let conv := convSame proj2 ttkernel
    let e := argmaxList conv
    some (e, conv.getD e (RVal.num 0))

/-- One event of a run: the stage-delay value read from the epics store, and
the camera frame, none when retrieval fails (missing image). -/
structure Event where
  delay : ℚ
  frame : Option (List (List RVal))

/-- Retrieval plus processing of one event: none exactly when the try block
of detect_edges raises for this event. -/
def processEvent (ev : Event) : Option (ℕ × RVal) :=
  match ev.frame with
  | none => none
  | some img => process_frame img

/-- One iteration of the detect_edges event loop: the stage delay is appended
first; if the try block raises, the just-appended entry is popped again and
nothing is appended to the edge and amplitude lists. -/
def detect_step (acc : List ℚ × List ℕ × List RVal) (ev : Event) :
    List ℚ × List ℕ × List RVal :=
  let stage := acc.1 ++ [ev.delay]
  match processEvent ev with
  | none => (stage.dropLast, acc.2.1, acc.2.2)
  | some pr => (stage, acc.2.1 ++ [pr.1], acc.2.2 ++ [pr.2])

/-- detect_edges (rawimagetimetool.py lines 113-158): fold the event loop over
the run, returning (stage_pos, edge_pos, conv_ampl). -/
def detect_edges (events : List Event) : List ℚ × List ℕ × List RVal :=
  events.foldl detect_step ([], [], [])

/-- The edge position recorded for a successfully processed event. -/
def event_edge (ev : Event) : ℕ :=
  ((processEvent ev).getD (0, RVal.num 0)).1

/-- The convolution amplitude recorded for a successfully processed event. -/
def event_ampl (ev : Event) : RVal :=
  ((processEvent ev).getD (0, RVal.num 0)).2

/-- fit_calib (rawimagetimetool.py lines 176-218), with np.polyfit abstracted
as an argument (it is an external numpy least-squares routine; its first
argument is the edge positions, its second the delays).  Boolean masking of
the delays by a condition on the edges is rendered as zip-filter-project.
The returned flag is the inrange variable: false means the out-of-range
warning was printed and the full unfiltered data was fit. -/
def fit_calib (polyfit : List ℚ → List ℚ → ℕ → List ℚ)
    (delays edges : List ℚ) (order : ℕ) : List ℚ × Bool :=
  if edges.any (fun e => decide (250 < e)) then
    let delays_f := ((delays.zip edges).filter fun pr => decide (250 < pr.2)).map Prod.fst
    let edges_f := edges.filter fun e => decide (250 < e)
    if edges_f.any (fun e => decide (e < 870)) then
      let delays_f2 := ((delays_f.zip edges_f).filter fun pr => decide (pr.2 < 870)).map Prod.fst
      let edges_f2 := edges_f.filter fun e => decide (e < 870)
      (polyfit edges_f2 delays_f2 order, true)
    else (polyfit edges delays order, false)
  else (polyfit edges delays order, false)

-- ================= model property setter (rawimagetimetool.py) ==============

/-- A python value passed to the model setter. -/
inductive PyVal where
  | vlist (coeffs : List ℚ)
  | vstr (s : String)
  | vother

/-- What the model setter does with its argument. -/
inductive SetterOutcome where
  | raisedNameError
  | raisedIndexError
  | loadedFrom (s : String)
  | unchanged
deriving DecidableEq

/-- val.split on the dot character, as python str.split: at least one part,
empty parts kept. -/
def pySplitDot : List Char → List Char → List (List Char)
  | [], cur => [cur.reverse]
  | c :: rest, cur =>
      if c = Char.ofNat 46 then cur.reverse :: pySplitDot rest []
      else pySplitDot rest (c :: cur)

/-- The model property setter (rawimagetimetool.py lines 330-351).  The list
branch executes self dot _model = model, where the name model is unbound in
the method scope, so it raises NameError.  The string branch takes
val.split into parts and reads parts[1] (IndexError when there is no dot),
then compares that single token: txt and yaml fall through unchanged, npy
loads the file, anything else falls off the if-chain unchanged.  A value of
any other type only prints and leaves the model unchanged. -/
def model_setter (val : PyVal) : SetterOutcome :=
  match val with
  | PyVal.vlist _ => SetterOutcome.raisedNameError
  | PyVal.vstr s =>
      let parts := pySplitDot s.toList []
      match parts.get? 1 with
      | none => SetterOutcome.raisedIndexError
      | some ext =>
          if ext = String.toList "txt" then SetterOutcome.unchanged
          else if ext = String.toList "yaml" then SetterOutcome.unchanged
          else if ext = String.toList "npy" then SetterOutcome.loadedFrom s
          else SetterOutcome.unchanged
  | PyVal.vother => SetterOutcome.unchanged

/-- The constant frame used to exhibit NaN propagation: 41 rows of a single
column, every pixel 3, so the cropped band is constant. -/
def constFrame : List (List RVal) := List.replicate 41 [RVal.num 3]

-- ============================ Helper lemmas ================================

theorem writeStep_foldl_const {g : Geom} (x : Panels g) (m : PixelMap g)
    (r c : ℕ) (v : ℚ) (l : List (Fin g.P × Fin g.F × Fin g.S))
    (hl : ∀ t ∈ l, m t.1 t.2.1 t.2.2 = (r, c) → x t.1 t.2.1 t.2.2 = v) :
    l.foldl (writeStep x m r c) v = v := by
  induction l with
  | nil => rfl
  | cons a t ih =>
    have ha := hl a (List.mem_cons_self a t)
    have step : writeStep x m r c v a = v := by
      unfold writeStep
      by_cases h : m a.1 a.2.1 a.2.2 = (r, c)
      · rw [if_pos h, ha h]
      · rw [if_neg h]
    rw [List.foldl_cons, step]
    exact ih fun b hb hq => hl b (List.mem_cons_of_mem a hb) hq

theorem writeStep_foldl_none {g : Geom} (x : Panels g) (m : PixelMap g)
    (r c : ℕ) (init : ℚ) (l : List (Fin g.P × Fin g.F × Fin g.S))
    (hl : ∀ t ∈ l, m t.1 t.2.1 t.2.2 ≠ (r, c)) :
    l.foldl (writeStep x m r c) init = init := by
  induction l with
  | nil => rfl
  | cons a t ih =>
    have step : writeStep x m r c init a = init := by
      unfold writeStep
      rw [if_neg (hl a (List.mem_cons_self a t))]
    rw [List.foldl_cons, step]
    exact ih fun b hb => hl b (List.mem_cons_of_mem a hb)

theorem writeStep_foldl_last {g : Geom} (x : Panels g) (m : PixelMap g)
    (r c : ℕ) (init : ℚ) (l1 l2 : List (Fin g.P × Fin g.F × Fin g.S))
    (t0 : Fin g.P × Fin g.F × Fin g.S)
    (h0 : m t0.1 t0.2.1 t0.2.2 = (r, c))
    (h2 : ∀ t ∈ l2, m t.1 t.2.1 t.2.2 = (r, c) →
            x t.1 t.2.1 t.2.2 = x t0.1 t0.2.1 t0.2.2) :
    (l1 ++ t0 :: l2).foldl (writeStep x m r c) init = x t0.1 t0.2.1 t0.2.2 := by
  rw [List.foldl_append, List.foldl_cons]
  have step : writeStep x m r c (l1.foldl (writeStep x m r c) init) t0
      = x t0.1 t0.2.1 t0.2.2 := by
    unfold writeStep
    rw [if_pos h0]
  rw [step]
  exact writeStep_foldl_const x m r c _ l2 h2

theorem mem_panelSources {g : Geom} (p : Fin g.P) (f : Fin g.F) (s : Fin g.S) :
    (p, f, s) ∈ panelSources g p := by
  unfold panelSources
  exact List.mem_flatMap.mpr
    ⟨f, List.mem_finRange f, List.mem_map.mpr ⟨s, List.mem_finRange s, rfl⟩⟩

theorem panelSources_fst {g : Geom} (p : Fin g.P) :
    ∀ t ∈ panelSources g p, t.1 = p := by
  intro t ht
  unfold panelSources at ht
  rcases List.mem_flatMap.mp ht with ⟨f, _, hm⟩
  rcases List.mem_map.mp hm with ⟨s, _, rfl⟩
  rfl

theorem mem_sources {g : Geom} (p : Fin g.P) (f : Fin g.F) (s : Fin g.S) :
    (p, f, s) ∈ sources g :=
  List.mem_flatMap.mpr ⟨p, List.mem_finRange p, mem_panelSources p f s⟩

theorem assembleOne_data_mapped {g : Geom} (x : Panels g) (m : PixelMap g)
    (hinj : MapInjective m) (p : Fin g.P) (f : Fin g.F) (s : Fin g.S) :
    (assembleOne x m).data (m p f s).1 (m p f s).2 = x p f s := by
  obtain ⟨l1, l2, hsplit⟩ := List.append_of_mem (mem_sources p f s)
  show (sources g).foldl (writeStep x m (m p f s).1 (m p f s).2) 0 = x p f s
  rw [hsplit]
  refine writeStep_foldl_last x m _ _ 0 l1 l2 (p, f, s) rfl ?_
  intro t ht hq
  obtain ⟨he1, he2, he3⟩ := hinj t.1 t.2.1 t.2.2 p f s hq
  rw [he1, he2, he3]

theorem disassembleOne_assembleOne {g : Geom} (x : Panels g) (m : PixelMap g)
    (hinj : MapInjective m) :
    disassembleOne (assembleOne x m) m = x := by
  funext p f s
  exact assembleOne_data_mapped x m hinj p f s

-- ================================ Claim C1 =================================

/-- C1 counterexample: the round-trip law fails as stated for batched mode
with batch size 1: the batch axis is squeezed away, so the result is a
single 3D stack, not the 4D batch X that went in (the pixel values do
survive, see the amended theorem). -/
theorem roundtrip_batch_one_squeezed :
    disassemble_image_stack_batch
        (assemble_image_stack_batch (StackData.batch 1 bOne) mOne) mOne
      ≠ StackData.batch 1 bOne := by
  intro h
  simp [assemble_image_stack_batch, disassemble_image_stack_batch] at h

/-- C1 (amended): for an injective pixel index map, disassemble after assemble
is the identity on single-image inputs and on batched inputs of batch size at
least 2; a batched input of batch size 1 round-trips to the squeezed single
stack carrying the same pixel values. -/
theorem roundtrip_amended {g : Geom} (m : PixelMap g) (hinj : MapInjective m) :
    (∀ x : Panels g,
        disassemble_image_stack_batch
            (assemble_image_stack_batch (StackData.single x) m) m
          = StackData.single x)
    ∧ (∀ (n : ℕ) (x : Fin n → Panels g), 2 ≤ n →
        disassemble_image_stack_batch
            (assemble_image_stack_batch (StackData.batch n x) m) m
          = StackData.batch n x)
    ∧ (∀ x : Fin 1 → Panels g,
        disassemble_image_stack_batch
            (assemble_image_stack_batch (StackData.batch 1 x) m) m
          = StackData.single (x 0)) := by
  refine ⟨fun x => ?_, fun n x hn => ?_, fun x => ?_⟩
  · show StackData.single (disassembleOne (assembleOne x m) m) = StackData.single x
    rw [disassembleOne_assembleOne x m hinj]
  · show disassemble_image_stack_batch
        (if h : n = 1 then ImageData.single (assembleOne (x ⟨0, by omega⟩) m)
         else ImageData.batch n (fun i => assembleOne (x i) m)) m
      = StackData.batch n x
    rw [dif_neg (by omega)]
    show (if h : n = 1 then
            StackData.single (disassembleOne (assembleOne (x ⟨0, by omega⟩) m) m)
          else StackData.batch n fun i => disassembleOne (assembleOne (x i) m) m)
        = StackData.batch n x
    rw [dif_neg (by omega)]
    congr 1
    funext i
    exact disassembleOne_assembleOne (x i) m hinj
  · show StackData.single (disassembleOne (assembleOne (x 0) m) m)
      = StackData.single (x 0)
    rw [disassembleOne_assembleOne (x 0) m hinj]

/-- C1 witness: the amended round-trip law at the concrete one-pixel map. -/
theorem roundtrip_amended_witness :
    MapInjective mOne
    ∧ (disassemble_image_stack_batch
          (assemble_image_stack_batch (StackData.single xOne) mOne) mOne
        = StackData.single xOne) :=
  ⟨by unfold MapInjective; decide, (roundtrip_amended mOne (by unfold MapInjective; decide)).1 xOne⟩

-- ================================ Claim C6 =================================

theorem le_foldl_max {α : Type} (f : α → ℕ) (l : List α) :
    ∀ init : ℕ, init ≤ l.foldl (fun a t => max a (f t)) init := by
  induction l with
  | nil => intro init; exact Nat.le_refl init
  | cons a t ih =>
    intro init
    exact le_trans (Nat.le_max_left init (f a)) (ih (max init (f a)))

theorem mem_le_foldl_max {α : Type} (f : α → ℕ) (l : List α) :
    ∀ init : ℕ, ∀ t ∈ l, f t ≤ l.foldl (fun a b => max a (f b)) init := by
  induction l with
  | nil => intro _ t ht; cases ht
  | cons a r ih =>
    intro init t ht
    rcases List.mem_cons.mp ht with h | h
    · subst h
      exact le_trans (Nat.le_max_right init (f t)) (le_foldl_max f r (max init (f t)))
    · exact ih (max init (f a)) t h

theorem foldl_max_cases {α : Type} (f : α → ℕ) (l : List α) :
    ∀ init : ℕ, l.foldl (fun a b => max a (f b)) init = init
      ∨ ∃ t ∈ l, l.foldl (fun a b => max a (f b)) init = f t := by
  induction l with
  | nil => intro init; exact Or.inl rfl
  | cons a r ih =>
    intro init
    rw [List.foldl_cons]
    rcases ih (max init (f a)) with h | ⟨t, ht, h⟩
    · rcases max_choice init (f a) with hm | hm
      · exact Or.inl (by rw [h, hm])
      · exact Or.inr ⟨a, List.mem_cons_self a r, by rw [h, hm]⟩
    · exact Or.inr ⟨t, List.mem_cons_of_mem a ht, h⟩

/-- C6: for nonempty matching geometry and an injective map, assemble of a
single stack wraps assembleOne; the canvas height and width are exactly one
more than the largest mapped row and column index; every mapped cell holds
the value of its unique source pixel; every cell no map entry addresses
keeps the zero fill. -/
theorem assemble_canvas_spec {g : Geom} (x : Panels g) (m : PixelMap g)
    (hP : 0 < g.P) (hF : 0 < g.F) (hS : 0 < g.S) (hinj : MapInjective m) :
    assemble_image_stack_batch (StackData.single x) m
        = ImageData.single (assembleOne x m)
    ∧ ((∀ p f s, (m p f s).1 < (assembleOne x m).height)
        ∧ (∃ p f s, (m p f s).1 + 1 = (assembleOne x m).height))
    ∧ ((∀ p f s, (m p f s).2 < (assembleOne x m).width)
        ∧ (∃ p f s, (m p f s).2 + 1 = (assembleOne x m).width))
    ∧ (∀ p f s, (assembleOne x m).data (m p f s).1 (m p f s).2 = x p f s)
    ∧ (∀ r c : ℕ, (∀ p f s, m p f s ≠ (r, c)) →
        (assembleOne x m).data r c = 0) := by
  have hmem : ∀ (p : Fin g.P) (f : Fin g.F) (s : Fin g.S),
      (p, f, s) ∈ sources g := fun p f s => mem_sources p f s
  have t0 : Fin g.P × Fin g.F × Fin g.S := (⟨0, hP⟩, ⟨0, hF⟩, ⟨0, hS⟩)
  refine ⟨rfl, ⟨?_, ?_⟩, ⟨?_, ?_⟩, ?_, ?_⟩
  · intro p f s
    have hle : (m p f s).1 ≤ maxRow m :=
      mem_le_foldl_max (fun t => (m t.1 t.2.1 t.2.2).1) (sources g) 0
        (p, f, s) (hmem p f s)
    exact Nat.lt_succ_of_le hle
  · rcases foldl_max_cases (fun t => (m t.1 t.2.1 t.2.2).1) (sources g) 0 with h | ⟨t, _, h⟩
    · refine ⟨⟨0, hP⟩, ⟨0, hF⟩, ⟨0, hS⟩, ?_⟩
      have hle : (m ⟨0, hP⟩ ⟨0, hF⟩ ⟨0, hS⟩).1 ≤ maxRow m :=
        mem_le_foldl_max (fun t => (m t.1 t.2.1 t.2.2).1) (sources g) 0
          (⟨0, hP⟩, ⟨0, hF⟩, ⟨0, hS⟩) (hmem _ _ _)
      have hzero : maxRow m = 0 := h
      show (m ⟨0, hP⟩ ⟨0, hF⟩ ⟨0, hS⟩).1 + 1 = maxRow m + 1
      omega
    · refine ⟨t.1, t.2.1, t.2.2, ?_⟩
      have hT : maxRow m = (m t.1 t.2.1 t.2.2).1 := h
      show (m t.1 t.2.1 t.2.2).1 + 1 = maxRow m + 1
      omega
  · intro p f s
    have hle : (m p f s).2 ≤ maxCol m :=
      mem_le_foldl_max (fun t => (m t.1 t.2.1 t.2.2).2) (sources g) 0
        (p, f, s) (hmem p f s)
    exact Nat.lt_succ_of_le hle
  · rcases foldl_max_cases (fun t => (m t.1 t.2.1 t.2.2).2) (sources g) 0 with h | ⟨t, _, h⟩
    · refine ⟨⟨0, hP⟩, ⟨0, hF⟩, ⟨0, hS⟩, ?_⟩
      have hle : (m ⟨0, hP⟩ ⟨0, hF⟩ ⟨0, hS⟩).2 ≤ maxCol m :=
        mem_le_foldl_max (fun t => (m t.1 t.2.1 t.2.2).2) (sources g) 0
          (⟨0, hP⟩, ⟨0, hF⟩, ⟨0, hS⟩) (hmem _ _ _)
      have hzero : maxCol m = 0 := h
      show (m ⟨0, hP⟩ ⟨0, hF⟩ ⟨0, hS⟩).2 + 1 = maxCol m + 1
      omega
    · refine ⟨t.1, t.2.1, t.2.2, ?_⟩
      have hT : maxCol m = (m t.1 t.2.1 t.2.2).2 := h
      show (m t.1 t.2.1 t.2.2).2 + 1 = maxCol m + 1
      omega
  · intro p f s
    exact assembleOne_data_mapped x m hinj p f s
  · intro r c hno
    exact writeStep_foldl_none x m r c 0 (sources g)
      (fun t _ => hno t.1 t.2.1 t.2.2)

/-- C6 witness: the canvas specification at the concrete one-pixel map. -/
theorem assemble_canvas_spec_witness :
    (0 < gOne.P ∧ 0 < gOne.F ∧ 0 < gOne.S ∧ MapInjective mOne)
    ∧ (∀ p f s, (assembleOne xOne mOne).data (mOne p f s).1 (mOne p f s).2
        = xOne p f s) :=
  ⟨by refine ⟨by decide, by decide, by decide, ?_⟩; unfold MapInjective; decide,
   (assemble_canvas_spec xOne mOne (by decide) (by decide) (by decide)
      (by unfold MapInjective; decide)).2.2.2.1⟩

-- ================================ Claim C7 =================================

/-- C7: assemble of a 3D stack yields a 2D image; assemble of a 4D batch
yields a 2D image when the batch axis has size 1 (squeeze) and otherwise a 3D
result keeping the batch size; disassemble follows the same convention,
producing a 3D stack from a 2D image or a size-1 batch and a 4D result
keeping the batch size otherwise. -/
theorem batch_squeeze_convention {g : Geom} (m : PixelMap g) :
    (∀ x : Panels g,
        (assemble_image_stack_batch (StackData.single x) m).ndim = 2)
    ∧ (∀ (n : ℕ) (z : Fin n → Panels g),
        (assemble_image_stack_batch (StackData.batch n z) m).ndim
          = if n = 1 then 2 else 3)
    ∧ (∀ (n : ℕ) (z : Fin n → Panels g),
        (assemble_image_stack_batch (StackData.batch n z) m).batchCount
          = if n = 1 then none else some n)
    ∧ (∀ img : AImage,
        (disassemble_image_stack_batch (ImageData.single img) m).ndim = 3)
    ∧ (∀ (n : ℕ) (imgs : Fin n → AImage),
        (disassemble_image_stack_batch (ImageData.batch n imgs) m).ndim
          = if n = 1 then 3 else 4)
    ∧ (∀ (n : ℕ) (imgs : Fin n → AImage),
        (disassemble_image_stack_batch (ImageData.batch n imgs) m).batchCount
          = if n = 1 then none else some n) := by
  refine ⟨fun x => rfl, fun n z => ?_, fun n z => ?_, fun img => rfl,
    fun n imgs => ?_, fun n imgs => ?_⟩ <;>
    by_cases h : n = 1 <;>
      simp [assemble_image_stack_batch, disassemble_image_stack_batch, h,
        ImageData.ndim, ImageData.batchCount, StackData.ndim, StackData.batchCount]

-- ================================ Claim C9 =================================

/-- C9: even on a colliding map assemble is deterministic: a cell targeted by
several panels holds the value written by the largest colliding panel index,
because the source loops over panels in increasing order and later writes
overwrite earlier ones.  The largest colliding panel is assumed to hit the
cell through a single one of its pixels (detector panels never self-overlap). -/
theorem assemble_collision_last_panel {g : Geom} (x : Panels g) (m : PixelMap g)
    (p0 : Fin g.P) (f0 : Fin g.F) (s0 : Fin g.S) (r c : ℕ)
    (h1 : m p0 f0 s0 = (r, c))
    (h2 : ∀ p f s, m p f s = (r, c) → p ≤ p0)
    (h3 : ∀ f s, m p0 f s = (r, c) → f = f0 ∧ s = s0) :
    (assembleOne x m).data r c = x p0 f0 s0 := by
  show (sources g).foldl (writeStep x m r c) 0 = x p0 f0 s0
  obtain ⟨L1, L2, hfin⟩ := List.append_of_mem (List.mem_finRange p0)
  have hpw := List.pairwise_lt_finRange g.P
  rw [hfin] at hpw
  have hgt : ∀ q ∈ L2, p0 < q :=
    (List.pairwise_cons.mp (List.pairwise_append.mp hpw).2.1).1
  unfold sources
  rw [hfin, List.flatMap_append]
  have hcons : (p0 :: L2).flatMap (panelSources g)
      = panelSources g p0 ++ L2.flatMap (panelSources g) := rfl
  rw [hcons, List.foldl_append, List.foldl_append]
  have hmid : (panelSources g p0).foldl (writeStep x m r c)
      ((L1.flatMap (panelSources g)).foldl (writeStep x m r c) 0)
      = x p0 f0 s0 := by
    obtain ⟨l1, l2, hps⟩ := List.append_of_mem (mem_panelSources p0 f0 s0)
    rw [hps]
    refine writeStep_foldl_last x m r c _ l1 l2 (p0, f0, s0) h1 ?_
    intro t ht hq
    have htmem : t ∈ panelSources g p0 := by
      rw [hps]
      exact List.mem_append.mpr (Or.inr (List.mem_cons_of_mem _ ht))
    have hfst : t.1 = p0 := panelSources_fst p0 t htmem
    rw [hfst] at hq
    obtain ⟨hf, hs⟩ := h3 t.2.1 t.2.2 hq
    rw [hfst, hf, hs]
  rw [hmid]
  refine writeStep_foldl_const x m r c _ (L2.flatMap (panelSources g)) ?_
  intro t ht hq
  rcases List.mem_flatMap.mp ht with ⟨q, hqL2, htq⟩
  have hfst : t.1 = q := panelSources_fst q t htq
  have hle : t.1 ≤ p0 := h2 t.1 t.2.1 t.2.2 hq
  have hlt : p0 < q := hgt q hqL2
  rw [hfst] at hle
  exact absurd hle (not_le.mpr hlt)

/-- C9 witness: on the two-panel colliding map the assembled cell (0, 0)
holds the value of panel 1, the larger colliding panel index. -/
theorem assemble_collision_last_panel_witness :
    (mTwo 1 0 0 = (0, 0)
      ∧ (∀ p f s, mTwo p f s = (0, 0) → p ≤ 1)
      ∧ (∀ f s, mTwo 1 f s = (0, 0) → f = 0 ∧ s = 0))
    ∧ (assembleOne xTwo mTwo).data 0 0 = xTwo 1 0 0 :=
  ⟨⟨by decide, by decide, by decide⟩,
   assemble_collision_last_panel xTwo mTwo 1 0 0 0 0
     (by decide) (by decide) (by decide)⟩

-- ============================= Claims C2, C3 ===============================

theorem enumFrom_foldl_sum (e : ℚ) (n : ℕ) :
    ∀ (l : List ℚ) (k : ℕ) (a : ℚ),
      (List.enumFrom k l).foldl (fun acc ic => acc + ic.2 * e ^ (n - ic.1 - 1)) a
        = a + ∑ i in Finset.range l.length, l.getD i 0 * e ^ (n - (k + i) - 1) := by
  intro l
  induction l with
  | nil => intro k a; simp
  | cons c tl ih =>
    intro k a
    rw [List.enumFrom_cons, List.foldl_cons, ih (k + 1) (a + c * e ^ (n - k - 1)),
      List.length_cons, Finset.sum_range_succ']
    have hidx : ∀ i : ℕ,
        (c :: tl).getD (i + 1) 0 * e ^ (n - (k + (i + 1)) - 1)
          = tl.getD i 0 * e ^ (n - (k + 1 + i) - 1) := by
      intro i
      rw [List.getD_cons_succ, show k + (i + 1) = k + 1 + i from by omega]
    rw [Finset.sum_congr rfl fun i _ => hidx i, List.getD_cons_zero]
    have hk : n - (k + 0) - 1 = n - k - 1 := by omega
    rw [hk]
    ring

/-- C2: for a nonempty calibration model (coefficients highest degree first),
jitter_correct evaluates the polynomial at the edge position and multiplies
by 1000; concretely, coefficients 1, 0, 0 at edge position 10 give 100000. -/
theorem jitter_correct_polynomial (model : List ℚ) (e : ℚ) (h : model ≠ []) :
    jitter_correct model e
      = (∑ i in Finset.range model.length,
          model.getD i 0 * e ^ (model.length - 1 - i)) * 1000
    ∧ jitter_correct [1, 0, 0] 10 = 100000 := by
  constructor
  · unfold jitter_correct
    dsimp only
    rw [if_neg (by simpa using h)]
    rw [show model.enum = List.enumFrom 0 model from rfl,
      enumFrom_foldl_sum e model.length model 0 0, zero_add]
    rw [Finset.sum_congr rfl fun i _ => by
      rw [show model.length - (0 + i) - 1 = model.length - 1 - i from by omega]]
  · norm_num [jitter_correct, List.enum, List.enumFrom, List.foldl]

/-- C2 witness: the polynomial form of jitter_correct at the concrete model
1, 0, 0 and edge position 10. -/
theorem jitter_correct_polynomial_witness :
    (([1, 0, 0] : List ℚ) ≠ [])
    ∧ jitter_correct [1, 0, 0] 10
        = (∑ i in Finset.range ([1, 0, 0] : List ℚ).length,
            ([1, 0, 0] : List ℚ).getD i 0 * (10 : ℚ) ^ (([1, 0, 0] : List ℚ).length - 1 - i)) * 1000 :=
  ⟨by decide, (jitter_correct_polynomial [1, 0, 0] 10 (by decide)).1⟩

/-- C3: with an empty (uncalibrated) model, jitter_correct returns exactly 0
for every edge position; the branch only prints that no correction is
possible, it does not raise. -/
theorem jitter_correct_uncalibrated :
    ∀ e : ℚ, jitter_correct [] e = 0 := by
  intro e
  unfold jitter_correct
  norm_num

-- ================================ Claim C4 =================================

theorem detect_edges_go (events : List Event) :
    ∀ (s : List ℚ) (e : List ℕ) (a : List RVal),
      events.foldl detect_step (s, e, a)
        = (s ++ (events.filter fun ev => (processEvent ev).isSome).map Event.delay,
           e ++ (events.filter fun ev => (processEvent ev).isSome).map event_edge,
           a ++ (events.filter fun ev => (processEvent ev).isSome).map event_ampl) := by
  induction events with
  | nil => intro s e a; simp
  | cons ev evs ih =>
    intro s e a
    rw [List.foldl_cons]
    cases hpe : processEvent ev with
    | none =>
      have hstep : detect_step (s, e, a) ev = (s, e, a) := by
        unfold detect_step
        rw [hpe]
        dsimp only
        rw [List.dropLast_concat]
      rw [hstep, ih s e a, List.filter_cons_of_neg (by simp [hpe])]
    | some pr =>
      have hstep : detect_step (s, e, a) ev
          = (s ++ [ev.delay], e ++ [pr.1], a ++ [pr.2]) := by
        unfold detect_step
        rw [hpe]
      rw [hstep, ih (s ++ [ev.delay]) (e ++ [pr.1]) (a ++ [pr.2]),
        List.filter_cons_of_pos (by simp [hpe])]
      have hedge : event_edge ev = pr.1 := by unfold event_edge; rw [hpe]; rfl
      have hampl : event_ampl ev = pr.2 := by unfold event_ampl; rw [hpe]; rfl
      simp [hedge, hampl]

theorem filter_some_add_none_length (events : List Event) :
    (events.filter fun ev => (processEvent ev).isSome).length
      + (events.filter fun ev => (processEvent ev).isNone).length
      = events.length := by
  induction events with
  | nil => rfl
  | cons ev evs ih =>
    cases hpe : processEvent ev with
    | none =>
      rw [List.filter_cons_of_neg (by simp [hpe]),
        List.filter_cons_of_pos (by simp [hpe]), List.length_cons, List.length_cons]
      omega
    | some pr =>
      rw [List.filter_cons_of_pos (by simp [hpe]),
        List.filter_cons_of_neg (by simp [hpe]), List.length_cons, List.length_cons]
      omega

/-- C4: the three sequences returned by detect_edges are exactly the
stage delays, edge positions and amplitudes of the events whose frame
retrieval and processing succeeded, in event order: the delay of each failed
event is popped again rather than kept or replaced, all three outputs have
length N minus the number of failed events, and position j of each output
comes from the same surviving event. -/
theorem detect_edges_alignment (events : List Event) :
    detect_edges events
      = ((events.filter fun ev => (processEvent ev).isSome).map Event.delay,
         (events.filter fun ev => (processEvent ev).isSome).map event_edge,
         (events.filter fun ev => (processEvent ev).isSome).map event_ampl)
    ∧ (detect_edges events).1.length
        = events.length - (events.filter fun ev => (processEvent ev).isNone).length
    ∧ (detect_edges events).2.1.length = (detect_edges events).1.length
    ∧ (detect_edges events).2.2.length = (detect_edges events).1.length := by
  have hmain : detect_edges events
      = ((events.filter fun ev => (processEvent ev).isSome).map Event.delay,
         (events.filter fun ev => (processEvent ev).isSome).map event_edge,
         (events.filter fun ev => (processEvent ev).isSome).map event_ampl) := by
    unfold detect_edges
    rw [detect_edges_go events [] [] []]
    simp
  have hlen := filter_some_add_none_length events
  refine ⟨hmain, ?_, ?_, ?_⟩
  all_goals rw [hmain]
  all_goals simp
  omega

-- ================================ Claim C5 =================================

theorem zip_filter_snd (q : ℚ → Bool) :
    ∀ (d e : List ℚ), d.length = e.length →
      ((((d.zip e).filter fun pr => q pr.2).map Prod.fst).zip
          (e.filter fun v => q v))
        = (d.zip e).filter fun pr => q pr.2 := by
  intro d
  induction d with
  | nil =>
    intro e h
    cases e with
    | nil => rfl
    | cons b e2 => simp at h
  | cons a d2 ih =>
    intro e h
    cases e with
    | nil => simp at h
    | cons b e2 =>
      have h2 : d2.length = e2.length := by
        rw [List.length_cons, List.length_cons] at h
        omega
      rw [List.zip_cons_cons]
      cases hq : q b with
      | false =>
        rw [List.filter_cons_of_neg (by simp [hq]),
          List.filter_cons_of_neg (by simp [hq])]
        exact ih e2 h2
      | true =>
        rw [List.filter_cons_of_pos (by simp [hq]),
          List.filter_cons_of_pos (by simp [hq]),
          List.map_cons, List.zip_cons_cons, ih e2 h2]

/-- C5: with index-aligned inputs, fit_calib hands the fit exactly the
samples whose edge position lies strictly between 250 and 870 whenever at
least one sample lies in that open window (flag true, no warning); when no
sample lies in the window it hands the fit the full unfiltered data instead
of raising, with the flag false marking the printed degraded-confidence
warning.  The polynomial routine itself (np.polyfit) is the abstracted
argument, so the requested order is passed through unchanged. -/
theorem fit_calib_window (polyfit : List ℚ → List ℚ → ℕ → List ℚ)
    (delays edges : List ℚ) (order : ℕ)
    (hlen : delays.length = edges.length) :
    ((∃ v ∈ edges, 250 < v ∧ v < 870) →
      fit_calib polyfit delays edges order
        = (polyfit
            (edges.filter fun v => decide (250 < v) && decide (v < 870))
            (((delays.zip edges).filter
                fun pr => decide (250 < pr.2) && decide (pr.2 < 870)).map Prod.fst)
            order,
          true))
    ∧ ((∀ v ∈ edges, ¬(250 < v ∧ v < 870)) →
      fit_calib polyfit delays edges order = (polyfit edges delays order, false)) := by
  constructor
  · rintro ⟨v0, hv0, h250, h870⟩
    have hany1 : edges.any (fun v => decide (250 < v)) = true :=
      List.any_eq_true.mpr ⟨v0, hv0, by simpa using h250⟩
    have hv0f : v0 ∈ edges.filter fun v => decide (250 < v) :=
      List.mem_filter.mpr ⟨hv0, by simpa using h250⟩
    have hany2 : (edges.filter fun v => decide (250 < v)).any
        (fun v => decide (v < 870)) = true :=
      List.any_eq_true.mpr ⟨v0, hv0f, by simpa using h870⟩
    unfold fit_calib
    rw [if_pos hany1]
    dsimp only
    rw [if_pos hany2]
    have hzip1 := zip_filter_snd (fun v => decide (250 < v)) delays edges hlen
    have hfe : (((delays.zip edges).filter fun pr => decide (250 < pr.2)).map
          Prod.fst).zip (edges.filter fun v => decide (250 < v))
        = (delays.zip edges).filter fun pr => decide (250 < pr.2) := hzip1
    rw [hfe, List.filter_filter, List.filter_filter]
    have hpred1 : ∀ v : ℚ,
        (decide (250 < v) && decide (v < 870)) = (decide (v < 870) && decide (250 < v)) := by
      intro v
      exact Bool.and_comm _ _
    have hpred2 : ∀ pr : ℚ × ℚ,
        (decide (250 < pr.2) && decide (pr.2 < 870))
          = (decide (pr.2 < 870) && decide (250 < pr.2)) := by
      intro pr
      exact Bool.and_comm _ _
    rw [List.filter_congr fun v _ => hpred1 v,
      List.filter_congr fun pr _ => hpred2 pr]
  · intro hall
    unfold fit_calib
    cases hany1 : edges.any (fun v => decide (250 < v)) with
    | false => rw [if_neg (by simp [hany1])]
    | true =>
      rw [if_pos rfl]
      dsimp only
      have hany2 : (edges.filter fun v => decide (250 < v)).any
          (fun v => decide (v < 870)) = false := by
        rw [List.any_eq_false]
        intro v hv
        have hmem := List.mem_filter.mp hv
        have h250 : 250 < v := by simpa using hmem.2
        have := hall v hmem.1
        simp only [not_and, not_lt] at this
        simpa using this h250
      rw [if_neg (by simp [hany2])]

/-- C5 witness: a sample set with one in-window edge position is filtered to
exactly that sample; the abstract fit receives it with the flag true. -/
theorem fit_calib_window_witness :
    (([1, 2] : List ℚ).length = ([300, 100] : List ℚ).length
      ∧ (∃ v ∈ ([300, 100] : List ℚ), 250 < v ∧ v < 870))
    ∧ fit_calib (fun e _ _ => e) [1, 2] [300, 100] 2
        = ((fun (e : List ℚ) (_ : List ℚ) (_ : ℕ) => e)
            (([300, 100] : List ℚ).filter fun v => decide (250 < v) && decide (v < 870))
            (((([1, 2] : List ℚ).zip ([300, 100] : List ℚ)).filter
                fun pr => decide (250 < pr.2) && decide (pr.2 < 870)).map Prod.fst)
            2,
          true) :=
  ⟨⟨by decide, by decide⟩,
   (fit_calib_window (fun e _ _ => e) [1, 2] [300, 100] 2 (by decide)).1 (by decide)⟩

-- ================================ Claim C8 =================================

section

attribute [local semireducible] Rat.sub Rat.add Rat.mul Rat.inv

/-- C8 (exhibiting the code bug): on a frame whose cropped band is constant,
the projection has zero dynamic range, so the normalisation divides by a
zero maximum.  detect_edges does not surface any error: float division by
zero silently yields non-finite values, the all-non-finite convolution
argmax degenerates to edge position 0, and the event is recorded with the
NaN amplitude and its stage delay kept — exactly the silent NaN propagation
the specification says must be surfaced as an explicit error. -/
theorem detect_edges_nan_silent :
    detect_edges [⟨7, some constFrame⟩] = ([7], [0], [RVal.nan]) := by
  set_option maxRecDepth 100000 in decide

end

-- ================================ Claim C10 ================================

/-- C10 counterexample: the setter keys on the SECOND dot-separated token of
the string, not on its trailing extension: the filename m.npy.txt, which
ends in .txt, is loaded into the model, while m.txt.npy, which ends in .npy,
leaves the model unchanged — both contradicting the claim. -/
theorem model_setter_counterexample :
    model_setter (PyVal.vstr "m.npy.txt") = SetterOutcome.loadedFrom "m.npy.txt"
    ∧ model_setter (PyVal.vstr "m.npy.txt") ≠ SetterOutcome.unchanged
    ∧ model_setter (PyVal.vstr "m.txt.npy") = SetterOutcome.unchanged :=
  ⟨by decide, by decide, by decide⟩

/-- C10 (amended): assigning a list raises NameError (the branch references
an unbound name), so a list never installs coefficients; a non-list,
non-string value leaves the model unchanged; a string replaces the model
exactly when its second dot-separated token is npy (for ordinary
single-extension filenames this is the filenames ending in .npy); a string
whose second token is txt or yaml leaves the model unchanged; a string with
no dot raises IndexError. -/
theorem model_setter_amended :
    (∀ l : List ℚ, model_setter (PyVal.vlist l) = SetterOutcome.raisedNameError)
    ∧ model_setter PyVal.vother = SetterOutcome.unchanged
    ∧ (∀ s : String,
        model_setter (PyVal.vstr s) = SetterOutcome.loadedFrom s
          ↔ (pySplitDot s.toList []).get? 1 = some (String.toList "npy"))
    ∧ (∀ s : String, (pySplitDot s.toList []).get? 1 = none →
        model_setter (PyVal.vstr s) = SetterOutcome.raisedIndexError)
    ∧ (∀ s : String,
        ((pySplitDot s.toList []).get? 1 = some (String.toList "txt")
          ∨ (pySplitDot s.toList []).get? 1 = some (String.toList "yaml")) →
        model_setter (PyVal.vstr s) = SetterOutcome.unchanged) := by
  refine ⟨fun l => rfl, rfl, fun s => ?_, fun s h => ?_, fun s h => ?_⟩
  · cases hx : (pySplitDot s.toList []).get? 1 with
    | none =>
      simp only [model_setter, hx]
      exact iff_of_false (by simp) (by simp)
    | some ext =>
      simp only [model_setter, hx]
      by_cases h1 : ext = String.toList "txt"
      · subst h1
        rw [if_pos rfl]
        exact iff_of_false (by simp) (by decide)
      · rw [if_neg h1]
        by_cases h2 : ext = String.toList "yaml"
        · subst h2
          rw [if_pos rfl]
          exact iff_of_false (by simp) (by decide)
        · rw [if_neg h2]
          by_cases h3 : ext = String.toList "npy"
          · subst h3
            rw [if_pos rfl]
            exact iff_of_true rfl rfl
          · rw [if_neg h3]
            exact iff_of_false (by simp) (by simpa using h3)
  · simp only [model_setter, h]
  · rcases h with h | h
    · simp only [model_setter, h]
      simp
    · simp only [model_setter, h]
      simp

/-- C10 witness: a string with no dot raises IndexError. -/
theorem model_setter_amended_witness :
    (pySplitDot ("model".toList) []).get? 1 = none
    ∧ model_setter (PyVal.vstr "model") = SetterOutcome.raisedIndexError :=
  ⟨by decide, model_setter_amended.2.2.2.1 "model" (by decide)⟩
